import Mathlib

/-!
Shallow embedding of the pipebuf package: a single-producer/single-consumer
byte pipe backed by a fixed-capacity circular buffer with a logical-length
encoding (the Go slice grows up to its capacity; wraparound truncates it back
to the write cursor).  Bytes are modelled as natural numbers, the backing Go
array as a `List Nat` whose length is the slice capacity, and the Go slice
length as a separate field.  Blocking is modelled by explicit `blocked`
results: a call that would suspend in Go (and can only be resumed by another
thread) is a `blocked` outcome of the sequential semantics.
-/

namespace Pipebuf

/-- Errors observable through the pipe: the generic closed-pipe error, the
end-of-stream signal, the short-write error of the transfer helper, and
arbitrary caller-supplied errors. -/
inductive Err where
  | closedPipe
  | eof
  | shortWrite
  | custom (n : Nat)
  deriving DecidableEq, Repr

/-- The Go slice expression `l[a:b]` (for an in-bounds pair `a ≤ b ≤ l.length`;
out of bounds it degrades totally instead of panicking). -/
def slice (l : List Nat) (a b : Nat) : List Nat := (l.drop a).take (b - a)

/-- The Go statement `copy(d[s:], u)` on a backing array `d`: overwrite `d`
starting at index `s` with the bytes of `u`, truncating at the end of `d`. -/
def storeAt : List Nat → Nat → List Nat → List Nat
  | [], _, _ => []
  | x :: d, s + 1, u => x :: storeAt d s u
  | x :: d, 0, u =>
    match u with
    | [] => x :: d
    | y :: u => y :: storeAt d 0 u

/-- The `pipe` struct of the source.  `data` is the backing array
(`cap(p.buffer)` slots), `length` is `len(p.buffer)`. The mutex and the two
condition variables have no state-content and are not represented. -/
structure Pipe where
  data : List Nat
  length : Nat
  writePos : Nat
  readPos : Nat
  readerClosed : Bool
  writerClosed : Bool
  readerClosedErr : Option Err
  writerClosedErr : Option Err
  deriving DecidableEq, Repr

/-- `cap(p.buffer)`. -/
def Pipe.cap (p : Pipe) : Nat := p.data.length


/-- `newPipe(size)`: a zeroed backing array of `size` slots, logical length 0. -/
def newPipe (size : Nat) : Pipe :=
  { data := List.replicate size 0
    length := 0
    writePos := 0
    readPos := 0
    readerClosed := false
    writerClosed := false
    readerClosedErr := none
    writerClosedErr := none }

/-- `p.empty()`. -/
def Pipe.empty (p : Pipe) : Bool := decide (p.readPos = p.length)

/-- `p.full()`. -/
def Pipe.full (p : Pipe) : Bool :=
  decide (p.readPos < p.length ∧ p.readPos = p.writePos)

/-- `p.readChunkLocked(dst)`: returns the count copied, the bytes copied
(`dst[:n]` afterwards), and the updated pipe.  A single call copies one
contiguous segment `p.buffer[p.readPos:len(p.buffer)]`; reaching the capacity
resets the read cursor and truncates the logical length to the write cursor. -/
def readChunkLocked (p : Pipe) (dstLen : Nat) : Nat × List Nat × Pipe :=
  let src := slice p.data p.readPos p.length
  let n := min dstLen src.length
  let out := src.take n
  let rp := p.readPos + n
  let p' :=
    if rp = p.cap then { p with readPos := 0, length := p.writePos }
    else { p with readPos := rp }
  (n, out, p')

/-- The `available` computation of `p.writeChunkLocked(src)`:
`min(end-p.writePos, len(src))` where `end` is `p.readPos` if the write cursor
is below the read cursor and `cap(p.buffer)` otherwise. -/
def writeAvail (p : Pipe) (srcLen : Nat) : Nat :=
  let e := if p.writePos < p.readPos then p.readPos else p.cap
  min (e - p.writePos) srcLen

/-- `p.writeChunkLocked(src)`: copy `available` bytes at the write cursor,
growing the logical length when required, wrapping the write cursor at the
capacity.  Returns the count written and the updated pipe. -/
def writeChunkLocked (p : Pipe) (src : List Nat) : Nat × Pipe :=
  let available := writeAvail p src.length
  let requiredLen := p.writePos + available
  let len' := if p.length < requiredLen then requiredLen else p.length
  let data' := storeAt p.data p.writePos (src.take available)
  let wp := p.writePos + available
  let p' :=
    if wp = p.cap then { p with data := data', length := len', writePos := 0 }
    else { p with data := data', length := len', writePos := wp }
  (available, p')

/-- Outcome of one of the `waitFor*Locked` loops, projected to the sequential
semantics: `ready` (return nil), `failed e` (return the error), or
`wouldBlock` (the Go code parks on the condition variable; no other thread
runs in a sequential step, so the call would suspend). -/
inductive WaitR where
  | ready
  | failed (e : Err)
  | wouldBlock
  deriving DecidableEq, Repr

/-- `p.waitForReadableLocked()`. -/
def waitForReadableLocked (p : Pipe) : WaitR :=
  if p.empty = false then .ready
  else if p.readerClosed then .failed (p.writerClosedErr.getD .closedPipe)
  else if p.writerClosed then .failed (p.readerClosedErr.getD .eof)
  else .wouldBlock

/-- `p.waitForWritableLocked()`. -/
def waitForWritableLocked (p : Pipe) : WaitR :=
  if p.readerClosed then .failed (p.writerClosedErr.getD .closedPipe)
  else if p.writerClosed then .failed .closedPipe
  else if p.full = false then .ready
  else .wouldBlock

/-- Result of `pipe.Read`: success with count, bytes and new state; an error
with the (unchanged) state; or a suspension. -/
inductive ReadResult where
  | ok (n : Nat) (bytes : List Nat) (p : Pipe)
  | fail (e : Err) (p : Pipe)
  | blocked
  deriving DecidableEq, Repr

/-- `pipe.Read(b)` where `dstLen = len(b)`. -/
def pread (p : Pipe) (dstLen : Nat) : ReadResult :=
  if dstLen = 0 then .ok 0 [] p
  else
    match waitForReadableLocked p with
    | .failed e => .fail e p
    | .wouldBlock => .blocked
    | .ready =>
      let r := readChunkLocked p dstLen
      .ok r.1 r.2.1 r.2.2

/-- Result of `pipe.Write`: completion with total count, error and new state,
or a suspension carrying the count accepted so far, the state at the moment of
parking, and the bytes still to write. -/
inductive WriteResult where
  | done (n : Nat) (e : Option Err) (p : Pipe)
  | blocked (n : Nat) (p : Pipe) (rest : List Nat)
  deriving DecidableEq, Repr

/-- The `for len(b) > 0` loop of `pipe.Write`.  `fuel` bounds the number of
iterations; each non-failing iteration writes at least one byte on every
state satisfying the buffer invariant, so `b.length` is always enough. -/
def writeLoop : Nat → Pipe → List Nat → Nat → WriteResult
  | _, p, [], acc => .done acc none p
  | 0, p, b, acc => .blocked acc p b
  | fuel + 1, p, b, acc =>
    match waitForWritableLocked p with
    | .failed e => .done acc (some e) p
    | .wouldBlock => .blocked acc p b
    | .ready =>
      let r := writeChunkLocked p b
      writeLoop fuel r.2 (b.drop r.1) (acc + r.1)

/-- `pipe.Write(b)`. -/
def pwrite (p : Pipe) (b : List Nat) : WriteResult := writeLoop b.length p b 0

/-- `p.closeReaderLocked(err, withErr)`. -/
def closeReaderLocked (p : Pipe) (e : Option Err) (withErr : Bool) : Pipe :=
  let q := { p with readerClosed := true }
  if withErr = true ∧ q.writerClosedErr = none then
    { q with writerClosedErr := some (e.getD .closedPipe) }
  else q

/-- `p.closeWriterLocked(err, withErr)`. -/
def closeWriterLocked (p : Pipe) (e : Option Err) (withErr : Bool) : Pipe :=
  let q := { p with writerClosed := true }
  if withErr = true ∧ q.readerClosedErr = none then
    { q with readerClosedErr := some (e.getD .eof) }
  else q

/-- `pipe.Close` (the plain close of the read handle). -/
def pcloseReader (p : Pipe) : Pipe := closeReaderLocked p none false

/-- `pipe.closeWrite` (the plain close of the write handle). -/
def pcloseWriter (p : Pipe) : Pipe := closeWriterLocked p none false

/-- `PipeReader.CloseWithError(err)` (`none` stands for a nil error). -/
def readerCloseWithError (p : Pipe) (e : Option Err) : Pipe :=
  closeReaderLocked p e true

/-- `PipeWriter.CloseWithError(err)` (`none` stands for a nil error). -/
def writerCloseWithError (p : Pipe) (e : Option Err) : Pipe :=
  closeWriterLocked p e true

/-- One scheduling step of a trace: a `Write` call of a whole chunk, a `Read`
call with a destination of the given size, or the wake-up of the single
in-flight blocked `Write` (its loop re-runs with the bytes it has not yet
accepted, as when a reader frees space and signals the writer). -/
inductive Op where
  | write (chunk : List Nat)
  | read (dstLen : Nat)
  | resume
  deriving DecidableEq, Repr

/-- The bytes a trace writes, in order: the concatenation of its `write`
chunks (a `resume` introduces no new bytes). -/
def writesOf : List Op → List Nat
  | [] => []
  | Op.write c :: ops => c ++ writesOf ops
  | Op.read _ :: ops => writesOf ops
  | Op.resume :: ops => writesOf ops

/-- The bytes a blocked `Write` call still has to deliver. -/
def pendRest : Option (Nat × List Nat) → List Nat
  | none => []
  | some (_, r) => r

/-- Run a trace of pipe calls under the monitor discipline: one call holds
the lock at a time, a `Write` that fills the buffer parks and leaves its
accepted-count and remaining bytes as the pending state (reads may run while
it is parked — the wait releases the lock), and `resume` re-runs the parked
loop.  Produces the concatenation of all bytes returned by the reads and the
final state; `none` for invalid or non-completing traces: a read that fails
or would block forever, a write finishing with an error, a second `Write`
while one is in flight (the pipe is single-producer), a `resume` with no
parked writer, or a trace that ends with the parked writer unfinished. -/
def runTrace : Pipe → Option (Nat × List Nat) → List Op → Option (List Nat × Pipe)
  | p, pend, [] =>
    match pend with
    | none => some ([], p)
    | some _ => none
  | p, pend, Op.read m :: ops =>
    match pread p m with
    | .ok _ out p' =>
      match runTrace p' pend ops with
      | some (rest, pf) => some (out ++ rest, pf)
      | none => none
    | _ => none
  | p, pend, Op.write c :: ops =>
    match pend with
    | some _ => none
    | none =>
      match pwrite p c with
      | .done _ none p' => runTrace p' none ops
      | .blocked acc p' rest => runTrace p' (some (acc, rest)) ops
      | _ => none
  | p, pend, Op.resume :: ops =>
    match pend with
    | none => none
    | some (acc0, r) =>
      match writeLoop r.length p r acc0 with
      | .done _ none p' => runTrace p' none ops
      | .blocked acc p' rest => runTrace p' (some (acc, rest)) ops
      | _ => none

/-- The final pipe state of a `pipe.Write` call, completed or suspended. -/
def wrPipe : WriteResult → Pipe
  | .done _ _ q => q
  | .blocked _ q _ => q

/-- The pipe state after a `pipe.Read` call from `p` (unchanged when the call
suspends). -/
def rrPipe : ReadResult → Pipe → Pipe
  | .ok _ _ q, _ => q
  | .fail _ q, _ => q
  | .blocked, p => p

/-- `copyBuffered(read, write)`, the loop behind `WriteTo` and `ReadFrom`,
abstracted over the two stream endpoints: `pulls` lists the successive results
of the pull function (count pulled and error), `push i` is the result of the
`i`-th push (count reported and error); counts are integers as in Go, so a
push may report a negative count.  Carries the running index of the next push
and the accumulated total; returns the final total and error.  An exhausted
`pulls` list ends the run (the Go loop only ever stops through an error or
end-of-stream, so a run of interest ends with an error entry). -/
def copyBuffered (push : Nat → Int × Option Err) :
    List (Int × Option Err) → Nat → Int → Int × Option Err
  | [], _, total => (total, none)
  | (n, rErr) :: pulls, i, total =>
    if 0 < n then
      let w := push i
      let wn := if w.1 < 0 ∨ n < w.1 then 0 else w.1
      let wErr := if (w.1 < 0 ∨ n < w.1) ∧ w.2 = none then some Err.shortWrite else w.2
      let total' := total + wn
      if wErr ≠ none then (total', wErr)
      else if wn ≠ n then (total', some Err.shortWrite)
      else
        match rErr with
        | some e => if e = Err.eof then (total', none) else (total', some e)
        | none => copyBuffered push pulls (i + 1) total'
    else
      match rErr with
      | some e => if e = Err.eof then (total, none) else (total, some e)
      | none => copyBuffered push pulls i total

/-- The unread bytes of the pipe, in the order a reader will receive them:
the segment from the read cursor to the logical length, followed, when the
buffer has wrapped (logical length at capacity with the read cursor strictly
inside), by the segment from the start to the write cursor. -/
def contents (p : Pipe) : List Nat :=
  if p.length = p.cap ∧ p.readPos < p.cap then
    slice p.data p.readPos p.length ++ slice p.data 0 p.writePos
  else
    slice p.data p.readPos p.length

/-- The inductive shape of every pipe state reachable from `newPipe`:
either the buffer has not wrapped (write cursor equals the logical length,
strictly below capacity) or it has (logical length pegged at capacity, write
cursor at or below the read cursor, read cursor strictly inside). -/
def Inv (p : Pipe) : Prop :=
  1 ≤ p.cap ∧
  ((p.writePos = p.length ∧ p.readPos ≤ p.length ∧ p.length < p.cap) ∨
   (p.length = p.cap ∧ p.writePos ≤ p.readPos ∧ p.readPos < p.cap))

instance (p : Pipe) : Decidable (Inv p) := by
  unfold Inv; infer_instance

/-- The invariant claimed in the specification: cursors within bounds and the
logical length within the capacity. -/
def ClaimInv (p : Pipe) : Prop :=
  p.readPos ≤ p.length ∧ p.length ≤ p.cap ∧ p.writePos ≤ p.cap

instance (p : Pipe) : Decidable (ClaimInv p) := by
  unfold ClaimInv; infer_instance

@[simp]
theorem Pipe.cap_eq (p : Pipe) : p.cap = p.data.length := rfl

theorem storeAt_nil_right (d : List Nat) (s : Nat) : storeAt d s [] = d := by
  induction d generalizing s with
  | nil => rfl
  | cons x d ih =>
    cases s with
    | zero => rfl
    | succ s => simp [storeAt, ih]

theorem storeAt_length (d : List Nat) (s : Nat) (u : List Nat) :
    (storeAt d s u).length = d.length := by
  induction d generalizing s u with
  | nil => rfl
  | cons x d ih =>
    cases s with
    | zero =>
      cases u with
      | nil => rfl
      | cons y u => simp [storeAt, ih]
    | succ s => simp [storeAt, ih]

theorem take_storeAt (d : List Nat) (s : Nat) (u : List Nat) (b : Nat)
    (h : b ≤ s) : (storeAt d s u).take b = d.take b := by
  induction d generalizing s u b with
  | nil => simp [storeAt]
  | cons x d ih =>
    cases b with
    | zero => simp
    | succ b =>
      cases s with
      | zero => omega
      | succ s => simp [storeAt, ih _ u _ (Nat.le_of_succ_le_succ h)]

theorem drop_storeAt (d : List Nat) (s : Nat) (u : List Nat) (a : Nat)
    (h : s + u.length ≤ a) : (storeAt d s u).drop a = d.drop a := by
  induction d generalizing s u a with
  | nil => simp [storeAt]
  | cons x d ih =>
    cases s with
    | zero =>
      cases u with
      | nil => rfl
      | cons y u =>
        cases a with
        | zero => simp at h
        | succ a =>
          have h' : 0 + u.length ≤ a := by simp at h; omega
          simp [storeAt, ih 0 u a h']
    | succ s =>
      cases a with
      | zero => omega
      | succ a =>
        have h' : s + u.length ≤ a := by omega
        simp [storeAt, ih s u a h']

theorem drop_storeAt_self (d : List Nat) (s : Nat) (u : List Nat)
    (h : s + u.length ≤ d.length) :
    (storeAt d s u).drop s = u ++ d.drop (s + u.length) := by
  induction d generalizing s u with
  | nil =>
    have h0 : s = 0 ∧ u.length = 0 := by
      have hz : s + u.length ≤ 0 := by simpa using h
      omega
    obtain ⟨hs, hu⟩ := h0
    subst hs
    rw [List.length_eq_zero.mp hu]
    rfl
  | cons x d ih =>
    cases s with
    | zero =>
      cases u with
      | nil => rfl
      | cons y u =>
        have h' : 0 + u.length ≤ d.length := by simp at h; omega
        have hrec := ih 0 u h'
        simp only [List.drop_zero, Nat.zero_add] at hrec
        simp only [storeAt, List.drop_zero, hrec, Nat.zero_add, List.length_cons,
          List.drop_succ_cons, List.cons_append]
    | succ s =>
      have h' : s + u.length ≤ d.length := by simp at h; omega
      simp only [storeAt, List.drop_succ_cons]
      rw [ih s u h']
      congr 1
      rw [show s + 1 + u.length = s + u.length + 1 by omega]
      simp

theorem slice_length (l : List Nat) (a b : Nat) :
    (slice l a b).length = min (b - a) (l.length - a) := by
  simp [slice]

theorem slice_eq_take_drop (l : List Nat) (a b : Nat) :
    slice l a b = (l.take b).drop a := by
  rw [slice, List.drop_take]

theorem slice_self (l : List Nat) : slice l 0 l.length = l := by
  simp [slice]

theorem slice_nil_of_ge (l : List Nat) (a b : Nat) (h : b ≤ a) :
    slice l a b = [] := by
  simp [slice, Nat.sub_eq_zero_of_le h]

theorem slice_append_slice (l : List Nat) (a b c : Nat) (h1 : a ≤ b) (h2 : b ≤ c) :
    slice l a b ++ slice l b c = slice l a c := by
  unfold slice
  rw [show c - a = (b - a) + (c - b) by omega, List.take_add, List.drop_drop,
    show a + (b - a) = b by omega]

theorem slice_drop (l : List Nat) (a b n : Nat) :
    (slice l a b).drop n = slice l (a + n) b := by
  unfold slice
  rw [List.drop_take, List.drop_drop, Nat.sub_sub]

theorem slice_take (l : List Nat) (a b n : Nat) (h : a + n ≤ b) :
    (slice l a b).take n = slice l a (a + n) := by
  unfold slice
  rw [List.take_take, Nat.add_sub_cancel_left]
  congr 1
  omega

theorem slice_storeAt_left (d : List Nat) (s : Nat) (u : List Nat) (a b : Nat)
    (h : b ≤ s) : slice (storeAt d s u) a b = slice d a b := by
  rw [slice_eq_take_drop, slice_eq_take_drop, take_storeAt d s u b h]

theorem slice_storeAt_right (d : List Nat) (s : Nat) (u : List Nat) (a b : Nat)
    (h : s + u.length ≤ a) : slice (storeAt d s u) a b = slice d a b := by
  unfold slice
  rw [drop_storeAt d s u a h]

theorem slice_storeAt_self (d : List Nat) (s : Nat) (u : List Nat)
    (h : s + u.length ≤ d.length) :
    slice (storeAt d s u) s (s + u.length) = u := by
  unfold slice
  rw [drop_storeAt_self d s u h, Nat.add_sub_cancel_left,
    List.take_append_of_le_length (by omega), List.take_of_length_le (by omega)]

theorem contents_newPipe (c : Nat) : contents (newPipe c) = [] := by
  unfold contents newPipe Pipe.cap slice
  split <;> simp

theorem Inv_newPipe (c : Nat) (hc : 1 ≤ c) : Inv (newPipe c) := by
  refine ⟨by simpa [newPipe, Pipe.cap] using hc, Or.inl ?_⟩
  simpa [newPipe, Pipe.cap] using hc

theorem contents_empty_iff (p : Pipe) (hInv : Inv p) :
    (p.empty = true ↔ contents p = []) := by
  obtain ⟨hk, ⟨hw, hr, hl⟩ | ⟨hl, hwr, hr⟩⟩ := hInv
  · unfold contents Pipe.cap at *
    rw [if_neg (by omega)]
    simp only [Pipe.empty, decide_eq_true_eq]
    constructor
    · intro h
      exact slice_nil_of_ge _ _ _ (by omega)
    · intro h
      have := congrArg List.length h
      rw [slice_length] at this
      simp at this
      omega
  · unfold contents Pipe.cap at *
    rw [if_pos (by omega)]
    simp only [Pipe.empty, decide_eq_true_eq]
    constructor
    · intro h
      exact absurd h (by omega)
    · intro h
      have := congrArg List.length h
      simp only [List.length_append, slice_length, List.length_nil] at this
      omega

theorem contents_of_wrapped (q : Pipe) (h1 : q.length = q.data.length)
    (h2 : q.readPos < q.data.length) :
    contents q = slice q.data q.readPos q.length ++ slice q.data 0 q.writePos := by
  unfold contents Pipe.cap
  rw [if_pos (by omega)]

theorem contents_of_straight (q : Pipe)
    (h : ¬ (q.length = q.data.length ∧ q.readPos < q.data.length)) :
    contents q = slice q.data q.readPos q.length := by
  unfold contents Pipe.cap
  rw [if_neg (by omega)]

theorem readChunk_spec (p : Pipe) (m : Nat) (hInv : Inv p) (hne : p.empty = false) :
    Inv (readChunkLocked p m).2.2 ∧
    (readChunkLocked p m).1 = min m (p.length - p.readPos) ∧
    (readChunkLocked p m).2.1 = (contents p).take ((readChunkLocked p m).1) ∧
    contents (readChunkLocked p m).2.2 = (contents p).drop ((readChunkLocked p m).1) := by
  have hne' : p.readPos ≠ p.length := by
    simpa [Pipe.empty] using hne
  obtain ⟨hk, ⟨hw, hr, hl⟩ | ⟨hl, hwr, hr⟩⟩ := hInv
  · -- not-wrapped state: one segment from readPos to length, no cursor reset
    unfold Pipe.cap at hk hl
    have hrl : p.readPos < p.length := by omega
    have hlen : (slice p.data p.readPos p.length).length = p.length - p.readPos := by
      rw [slice_length]; omega
    simp only [readChunkLocked, Pipe.cap, hlen]
    rw [if_neg (by omega)]
    have hcont : contents p = slice p.data p.readPos p.length := by
      unfold contents Pipe.cap
      rw [if_neg (by omega)]
    refine ⟨by dsimp only [Inv, Pipe.cap_eq]; omega, trivial, by rw [hcont], ?_⟩
    rw [hcont]
    have hcont' : contents { p with readPos := p.readPos + min m (p.length - p.readPos) } =
        slice p.data (p.readPos + min m (p.length - p.readPos)) p.length := by
      unfold contents Pipe.cap
      rw [if_neg (by simp; omega)]
    rw [hcont', slice_drop]
  · -- wrapped state: segment up to capacity, possible cursor reset
    unfold Pipe.cap at hk hl hr
    have hlen : (slice p.data p.readPos p.length).length = p.data.length - p.readPos := by
      rw [slice_length]; omega
    have hcont : contents p =
        slice p.data p.readPos p.length ++ slice p.data 0 p.writePos := by
      unfold contents Pipe.cap
      rw [if_pos (by omega)]
    have hnle : min m (p.data.length - p.readPos) ≤
        (slice p.data p.readPos p.length).length := by
      rw [hlen]; omega
    simp only [readChunkLocked, Pipe.cap, hlen]
    by_cases hrn : p.readPos + min m (p.data.length - p.readPos) = p.data.length
    · rw [if_pos hrn]
      have hnn : min m (p.data.length - p.readPos) =
          (slice p.data p.readPos p.length).length := by
        rw [hlen]; omega
      refine ⟨by dsimp only [Inv, Pipe.cap_eq]; omega, by omega, ?_, ?_⟩
      · rw [hcont, List.take_append_of_le_length hnle]
      · have hcont' : contents { p with readPos := 0, length := p.writePos } =
            slice p.data 0 p.writePos := by
          unfold contents Pipe.cap
          rw [if_neg (by simp; omega)]
        rw [hcont', hcont, hnn, List.drop_left]
    · rw [if_neg hrn]
      have hrn' : p.readPos + min m (p.data.length - p.readPos) < p.data.length := by
        omega
      refine ⟨by dsimp only [Inv, Pipe.cap_eq]; omega, by omega, ?_, ?_⟩
      · rw [hcont, List.take_append_of_le_length hnle]
      · have hcont' : contents
            { p with readPos := p.readPos + min m (p.data.length - p.readPos) } =
            slice p.data (p.readPos + min m (p.data.length - p.readPos)) p.length ++
              slice p.data 0 p.writePos := by
          unfold contents Pipe.cap
          rw [if_pos (by simp; omega)]
        rw [hcont', hcont, List.drop_append_of_le_length hnle, slice_drop]

theorem writeChunk_spec (p : Pipe) (src : List Nat) (hInv : Inv p) (hfu : p.full = false) :
    Inv (writeChunkLocked p src).2 ∧
    (writeChunkLocked p src).1 = writeAvail p src.length ∧
    (writeChunkLocked p src).1 ≤ src.length ∧
    (src ≠ [] → 1 ≤ (writeChunkLocked p src).1) ∧
    contents (writeChunkLocked p src).2 =
      contents p ++ src.take ((writeChunkLocked p src).1) := by
  obtain ⟨hk, ⟨hw, hr, hl⟩ | ⟨hl, hwr, hr⟩⟩ := hInv
  · -- not-wrapped state: the chunk goes between the logical length and capacity
    unfold Pipe.cap at hk hl
    have hnlt : ¬ (p.writePos < p.readPos) := by omega
    have hav : writeAvail p src.length = min (p.data.length - p.writePos) src.length := by
      unfold writeAvail Pipe.cap
      rw [if_neg hnlt]
    set av := min (p.data.length - p.writePos) src.length with hdefav
    have havs : av ≤ src.length := by omega
    have havc : p.writePos + av ≤ p.data.length := by omega
    have htk : (src.take av).length = av := by
      rw [List.length_take]; omega
    have hdl : (storeAt p.data p.writePos (src.take av)).length = p.data.length :=
      storeAt_length _ _ _
    have hlen' : (if p.length < p.writePos + av then p.writePos + av else p.length) =
        p.writePos + av := by
      split <;> omega
    have hcont : contents p = slice p.data p.readPos p.length := by
      unfold contents Pipe.cap
      rw [if_neg (by omega)]
    have hmid : slice (storeAt p.data p.writePos (src.take av)) p.writePos
        (p.writePos + av) = src.take av := by
      have := slice_storeAt_self p.data p.writePos (src.take av) (by omega)
      rwa [htk] at this
    have hleft : slice (storeAt p.data p.writePos (src.take av)) p.readPos p.length =
        slice p.data p.readPos p.length :=
      slice_storeAt_left _ _ _ _ _ (by omega)
    simp only [writeChunkLocked, writeAvail, Pipe.cap_eq]
    rw [if_neg hnlt, ← hdefav, hlen']
    by_cases hwrap : p.writePos + av = p.data.length
    · rw [if_pos hwrap]
      refine ⟨?_, trivial, havs, ?_, ?_⟩
      · dsimp only [Inv, Pipe.cap_eq]
        rw [hdl]
        omega
      · intro hsrc
        have : 0 < src.length := List.length_pos.mpr hsrc
        omega
      · have hmid2 : slice (storeAt p.data p.writePos (src.take av)) p.length
            (p.writePos + av) = src.take av := by
          rw [← hw]; exact hmid
        rw [contents_of_wrapped _ (by dsimp only; rw [hdl]; omega)
          (by dsimp only; rw [hdl]; omega)]
        dsimp only
        rw [hcont,
          ← slice_append_slice (storeAt p.data p.writePos (src.take av)) p.readPos
            p.length (p.writePos + av) (by omega) (by omega),
          hleft, hmid2]
        simp [slice]
    · rw [if_neg hwrap]
      refine ⟨?_, trivial, havs, ?_, ?_⟩
      · dsimp only [Inv, Pipe.cap_eq]
        rw [hdl]
        omega
      · intro hsrc
        have : 0 < src.length := List.length_pos.mpr hsrc
        omega
      · have hmid2 : slice (storeAt p.data p.writePos (src.take av)) p.length
            (p.writePos + av) = src.take av := by
          rw [← hw]; exact hmid
        rw [contents_of_straight _ (by dsimp only; rw [hdl]; omega)]
        dsimp only
        rw [hcont,
          ← slice_append_slice (storeAt p.data p.writePos (src.take av)) p.readPos
            p.length (p.writePos + av) (by omega) (by omega),
          hleft, hmid2]
  · -- wrapped state: the chunk goes between the write cursor and the read cursor
    unfold Pipe.cap at hk hl hr
    have hful : ¬ (p.readPos < p.length ∧ p.readPos = p.writePos) := by
      simpa [Pipe.full] using hfu
    have hwlt : p.writePos < p.readPos := by omega
    have hav : writeAvail p src.length = min (p.readPos - p.writePos) src.length := by
      unfold writeAvail Pipe.cap
      rw [if_pos hwlt]
    set av := min (p.readPos - p.writePos) src.length with hdefav
    have havs : av ≤ src.length := by omega
    have havc : p.writePos + av ≤ p.readPos := by omega
    have htk : (src.take av).length = av := by
      rw [List.length_take]; omega
    have hdl : (storeAt p.data p.writePos (src.take av)).length = p.data.length :=
      storeAt_length _ _ _
    have hlen' : (if p.length < p.writePos + av then p.writePos + av else p.length) =
        p.length := by
      split <;> omega
    have hcont : contents p =
        slice p.data p.readPos p.length ++ slice p.data 0 p.writePos := by
      unfold contents Pipe.cap
      rw [if_pos (by omega)]
    have hmid : slice (storeAt p.data p.writePos (src.take av)) p.writePos
        (p.writePos + av) = src.take av := by
      have := slice_storeAt_self p.data p.writePos (src.take av) (by omega)
      rwa [htk] at this
    have hleft : slice (storeAt p.data p.writePos (src.take av)) 0 p.writePos =
        slice p.data 0 p.writePos :=
      slice_storeAt_left _ _ _ _ _ (by omega)
    have hhigh : slice (storeAt p.data p.writePos (src.take av)) p.readPos p.length =
        slice p.data p.readPos p.length := by
      refine slice_storeAt_right _ _ _ _ _ ?_
      rw [htk]; omega
    simp only [writeChunkLocked, writeAvail, Pipe.cap_eq]
    rw [if_pos hwlt, ← hdefav, hlen']
    rw [if_neg (by omega)]
    refine ⟨?_, trivial, havs, ?_, ?_⟩
    · dsimp only [Inv, Pipe.cap_eq]
      rw [hdl]
      omega
    · intro hsrc
      have : 0 < src.length := List.length_pos.mpr hsrc
      omega
    · rw [contents_of_wrapped _ (by dsimp only; rw [hdl]; omega)
        (by dsimp only; rw [hdl]; omega)]
      dsimp only
      rw [hcont, hhigh,
        ← slice_append_slice (storeAt p.data p.writePos (src.take av)) 0 p.writePos
          (p.writePos + av) (by omega) (by omega),
        hleft, hmid, List.append_assoc]

theorem pread_zero (p : Pipe) : pread p 0 = .ok 0 [] p := rfl

theorem pread_nonempty (p : Pipe) (m : Nat) (hm : m ≠ 0) (hne : p.empty = false) :
    pread p m =
      .ok (readChunkLocked p m).1 (readChunkLocked p m).2.1 (readChunkLocked p m).2.2 := by
  unfold pread waitForReadableLocked
  rw [if_neg hm, if_pos hne]

theorem pread_empty_readerClosed (p : Pipe) (m : Nat) (hm : m ≠ 0)
    (he : p.empty = true) (hrc : p.readerClosed = true) :
    pread p m = .fail (p.writerClosedErr.getD .closedPipe) p := by
  unfold pread waitForReadableLocked
  rw [if_neg hm, if_neg (by simp [he]), if_pos hrc]

theorem pread_empty_writerClosed (p : Pipe) (m : Nat) (hm : m ≠ 0)
    (he : p.empty = true) (hrc : p.readerClosed = false) (hwc : p.writerClosed = true) :
    pread p m = .fail (p.readerClosedErr.getD .eof) p := by
  unfold pread waitForReadableLocked
  rw [if_neg hm, if_neg (by simp [he]), if_neg (by simp [hrc]), if_pos hwc]

theorem pread_empty_open (p : Pipe) (m : Nat) (hm : m ≠ 0)
    (he : p.empty = true) (hrc : p.readerClosed = false) (hwc : p.writerClosed = false) :
    pread p m = .blocked := by
  unfold pread waitForReadableLocked
  rw [if_neg hm, if_neg (by simp [he]), if_neg (by simp [hrc]), if_neg (by simp [hwc])]

theorem pread_ok_spec (p : Pipe) (m n : Nat) (out : List Nat) (p' : Pipe)
    (hInv : Inv p) (h : pread p m = .ok n out p') :
    Inv p' ∧ out ++ contents p' = contents p ∧
    out = (contents p).take n ∧ contents p' = (contents p).drop n := by
  by_cases hm : m = 0
  · subst hm
    rw [pread_zero] at h
    injection h with h1 h2 h3
    subst h1; subst h2; subst h3
    simp [hInv]
  · by_cases hne : p.empty = false
    · rw [pread_nonempty p m hm hne] at h
      injection h with h1 h2 h3
      subst h1; subst h2; subst h3
      obtain ⟨hi, _, htake, hdrop⟩ := readChunk_spec p m hInv hne
      refine ⟨hi, ?_, htake, hdrop⟩
      rw [htake, hdrop, List.take_append_drop]
    · have he : p.empty = true := by
        cases hb : p.empty
        · exact absurd hb hne
        · rfl
      cases hrc : p.readerClosed
      · cases hwc : p.writerClosed
        · rw [pread_empty_open p m hm he hrc hwc] at h
          exact absurd h (by simp)
        · rw [pread_empty_writerClosed p m hm he hrc hwc] at h
          exact absurd h (by simp)
      · rw [pread_empty_readerClosed p m hm he hrc] at h
        exact absurd h (by simp)

theorem wfw_ready_elim (p : Pipe) (h : waitForWritableLocked p = .ready) :
    p.readerClosed = false ∧ p.writerClosed = false ∧ p.full = false := by
  unfold waitForWritableLocked at h
  cases hrc : p.readerClosed <;> rw [hrc] at h
  · cases hwc : p.writerClosed <;> rw [hwc] at h
    · by_cases hf : p.full = false
      · exact ⟨rfl, rfl, hf⟩
      · rw [if_neg (by simp), if_neg (by simp), if_neg hf] at h
        exact absurd h (by simp)
    · rw [if_neg (by simp), if_pos rfl] at h
      exact absurd h (by simp)
  · rw [if_pos rfl] at h
    exact absurd h (by simp)

theorem wfw_readerClosed (p : Pipe) (hrc : p.readerClosed = true) :
    waitForWritableLocked p = .failed (p.writerClosedErr.getD .closedPipe) := by
  unfold waitForWritableLocked
  rw [if_pos hrc]

theorem wfw_writerClosed (p : Pipe) (hrc : p.readerClosed = false)
    (hwc : p.writerClosed = true) :
    waitForWritableLocked p = .failed .closedPipe := by
  unfold waitForWritableLocked
  rw [if_neg (by simp [hrc]), if_pos hwc]

theorem writeLoop_nil (fuel : Nat) (p : Pipe) (acc : Nat) :
    writeLoop fuel p [] acc = .done acc none p := by
  cases fuel <;> rfl

theorem writeLoop_succ_cons (fuel : Nat) (p : Pipe) (x : Nat) (b : List Nat) (acc : Nat) :
    writeLoop (fuel + 1) p (x :: b) acc =
      match waitForWritableLocked p with
      | .failed e => .done acc (some e) p
      | .wouldBlock => .blocked acc p (x :: b)
      | .ready =>
        writeLoop fuel (writeChunkLocked p (x :: b)).2
          ((x :: b).drop (writeChunkLocked p (x :: b)).1)
          (acc + (writeChunkLocked p (x :: b)).1) := rfl

theorem writeLoop_zero_cons (p : Pipe) (x : Nat) (b : List Nat) (acc : Nat) :
    writeLoop 0 p (x :: b) acc = .blocked acc p (x :: b) := rfl

theorem writeLoop_spec (fuel : Nat) :
    ∀ p b acc n p', Inv p → writeLoop fuel p b acc = .done n none p' →
    Inv p' ∧ contents p' = contents p ++ b ∧ n = acc + b.length := by
  induction fuel with
  | zero =>
    intro p b acc n p' hInv h
    cases b with
    | nil =>
      rw [writeLoop_nil] at h
      injection h with h1 h2 h3
      subst h1; subst h3
      simp [hInv]
    | cons x b =>
      rw [writeLoop_zero_cons] at h
      exact absurd h (by simp)
  | succ fuel ih =>
    intro p b acc n p' hInv h
    cases b with
    | nil =>
      rw [writeLoop_nil] at h
      injection h with h1 h2 h3
      subst h1; subst h3
      simp [hInv]
    | cons x b =>
      rw [writeLoop_succ_cons] at h
      cases hw : waitForWritableLocked p <;> rw [hw] at h
      · obtain ⟨_, _, hf⟩ := wfw_ready_elim p hw
        obtain ⟨hi1, _, hle, _, hcnt⟩ := writeChunk_spec p (x :: b) hInv hf
        obtain ⟨hi2, hc2, hn2⟩ := ih _ _ _ _ _ hi1 h
        refine ⟨hi2, ?_, ?_⟩
        · rw [hc2, hcnt, List.append_assoc, List.take_append_drop]
        · rw [hn2, List.length_drop]
          omega
      · exact absurd h (by simp)
      · exact absurd h (by simp)

theorem writeLoop_blocked_rest_ne (fuel : Nat) :
    ∀ p b acc n q rest, writeLoop fuel p b acc = .blocked n q rest → rest ≠ [] := by
  induction fuel with
  | zero =>
    intro p b acc n q rest h
    cases b with
    | nil => rw [writeLoop_nil] at h; exact absurd h (by simp)
    | cons x b =>
      rw [writeLoop_zero_cons] at h
      injection h with h1 h2 h3
      subst h3
      simp
  | succ fuel ih =>
    intro p b acc n q rest h
    cases b with
    | nil => rw [writeLoop_nil] at h; exact absurd h (by simp)
    | cons x b =>
      rw [writeLoop_succ_cons] at h
      cases hw : waitForWritableLocked p <;> rw [hw] at h
      · exact ih _ _ _ _ _ _ h
      · exact absurd h (by simp)
      · injection h with h1 h2 h3
        subst h3
        simp

theorem pwrite_done_none (p : Pipe) (b : List Nat) (n : Nat) (p' : Pipe)
    (hInv : Inv p) (h : pwrite p b = .done n none p') :
    Inv p' ∧ contents p' = contents p ++ b ∧ n = b.length := by
  obtain ⟨h1, h2, h3⟩ := writeLoop_spec b.length p b 0 n p' hInv h
  exact ⟨h1, h2, by omega⟩


theorem writeLoop_partial_spec (fuel : Nat) :
    ∀ p b acc n p' rest, Inv p → writeLoop fuel p b acc = .blocked n p' rest →
    Inv p' ∧ contents p' ++ rest = contents p ++ b := by
  induction fuel with
  | zero =>
    intro p b acc n p' rest hInv h
    cases b with
    | nil => rw [writeLoop_nil] at h; exact absurd h (by simp)
    | cons x bs =>
      rw [writeLoop_zero_cons] at h
      injection h with h1 h2 h3
      subst h2; subst h3
      exact ⟨hInv, rfl⟩
  | succ fuel ih =>
    intro p b acc n p' rest hInv h
    cases b with
    | nil => rw [writeLoop_nil] at h; exact absurd h (by simp)
    | cons x bs =>
      rw [writeLoop_succ_cons] at h
      cases hw : waitForWritableLocked p <;> rw [hw] at h
      · obtain ⟨_, _, hf⟩ := wfw_ready_elim p hw
        obtain ⟨hi1, _, _, _, hcnt⟩ := writeChunk_spec p (x :: bs) hInv hf
        obtain ⟨hi2, hc2⟩ := ih _ _ _ _ _ _ hi1 h
        refine ⟨hi2, ?_⟩
        rw [hc2, hcnt, List.append_assoc, List.take_append_drop]
      · exact absurd h (by simp)
      · injection h with h1 h2 h3
        subst h2; subst h3
        exact ⟨hInv, rfl⟩

theorem runTrace_spec (ops : List Op) :
    ∀ p pend out pf, Inv p → runTrace p pend ops = some (out, pf) →
    Inv pf ∧ out ++ contents pf = contents p ++ pendRest pend ++ writesOf ops := by
  induction ops with
  | nil =>
    intro p pend out pf hInv h
    cases pend with
    | none =>
      have h2 : some (([] : List Nat), p) = some (out, pf) := h
      injection h2 with h1
      injection h1 with h2 h3
      subst h2; subst h3
      simp [hInv, writesOf, pendRest]
    | some pw =>
      have h2 : (none : Option (List Nat × Pipe)) = some (out, pf) := h
      exact absurd h2 (by simp)
  | cons op ops ih =>
    intro p pend out pf hInv h
    cases op with
    | write c =>
      cases pend with
      | some pw =>
        have h2 : (none : Option (List Nat × Pipe)) = some (out, pf) := h
        exact absurd h2 (by simp)
      | none =>
        have h2 : (match pwrite p c with
            | .done _ none p' => runTrace p' none ops
            | .blocked acc p' rest => runTrace p' (some (acc, rest)) ops
            | _ => none) = some (out, pf) := h
        cases hpw : pwrite p c <;> rw [hpw] at h2
        case done n oe p' =>
          cases oe with
          | none =>
            obtain ⟨hi1, hc1, _⟩ := pwrite_done_none p c n p' hInv hpw
            obtain ⟨hi2, hc2⟩ := ih p' none out pf hi1 h2
            refine ⟨hi2, ?_⟩
            rw [hc2, hc1]
            simp [pendRest, writesOf]
          | some e => exact absurd h2 (by simp)
        case blocked acc p' rest =>
          obtain ⟨hi1, hc1⟩ := writeLoop_partial_spec c.length p c 0 acc p' rest hInv hpw
          obtain ⟨hi2, hc2⟩ := ih p' (some (acc, rest)) out pf hi1 h2
          refine ⟨hi2, ?_⟩
          rw [hc2]
          simp only [pendRest, writesOf]
          rw [hc1]
          simp [List.append_assoc]
    | read m =>
      have h2 : (match pread p m with
          | .ok _ out p' =>
            match runTrace p' pend ops with
            | some (rest, pf) => some (out ++ rest, pf)
            | none => none
          | _ => none) = some (out, pf) := h
      cases hpr : pread p m <;> rw [hpr] at h2
      case ok n bs p' =>
        have h3 : (match runTrace p' pend ops with
            | some (rest, pf) => some (bs ++ rest, pf)
            | none => none) = some (out, pf) := h2
        cases hrt : runTrace p' pend ops <;> rw [hrt] at h3
        case none => exact absurd h3 (by simp)
        case some v =>
          obtain ⟨rest, pf'⟩ := v
          injection h3 with h1
          injection h1 with h4 h5
          subst h4; subst h5
          obtain ⟨hi1, hc1, _, _⟩ := pread_ok_spec p m n bs p' hInv hpr
          obtain ⟨hi2, hc2⟩ := ih p' pend rest pf' hi1 hrt
          refine ⟨hi2, ?_⟩
          rw [show writesOf (Op.read m :: ops) = writesOf ops from rfl,
            List.append_assoc, hc2, ← List.append_assoc, ← List.append_assoc, hc1]
      case fail => exact absurd h2 (by simp)
      case blocked => exact absurd h2 (by simp)
    | resume =>
      cases pend with
      | none =>
        have h2 : (none : Option (List Nat × Pipe)) = some (out, pf) := h
        exact absurd h2 (by simp)
      | some pw =>
        obtain ⟨acc0, r⟩ := pw
        have h2 : (match writeLoop r.length p r acc0 with
            | .done _ none p' => runTrace p' none ops
            | .blocked acc p' rest => runTrace p' (some (acc, rest)) ops
            | _ => none) = some (out, pf) := h
        cases hwl : writeLoop r.length p r acc0 <;> rw [hwl] at h2
        case done n oe p' =>
          cases oe with
          | none =>
            obtain ⟨hi1, hc1, _⟩ := writeLoop_spec r.length p r acc0 n p' hInv hwl
            obtain ⟨hi2, hc2⟩ := ih p' none out pf hi1 h2
            refine ⟨hi2, ?_⟩
            rw [hc2, hc1]
            simp [pendRest, writesOf]
          | some e => exact absurd h2 (by simp)
        case blocked acc p' rest =>
          obtain ⟨hi1, hc1⟩ :=
            writeLoop_partial_spec r.length p r acc0 acc p' rest hInv hwl
          obtain ⟨hi2, hc2⟩ := ih p' (some (acc, rest)) out pf hi1 h2
          refine ⟨hi2, ?_⟩
          rw [hc2]
          simp only [pendRest, writesOf]
          rw [hc1]

/-- Claim C1: streaming fidelity under fragmentation.  For every capacity of
at least one and every interleaving of `Write` and `Read` calls of arbitrary
chunk sizes under the monitor discipline — including writes that fill the
buffer, park, and resume after reads free space — in which every call
eventually completes (writes in full and without error, reads without error)
and that drains the buffer, the bytes returned by the reads, in order, are
exactly the concatenation of the written chunks: no byte is lost, duplicated
or reordered. -/
theorem streaming_fidelity (c : Nat) (hc : 1 ≤ c) (ops : List Op)
    (out : List Nat) (pf : Pipe)
    (h : runTrace (newPipe c) none ops = some (out, pf))
    (hdrained : pf.empty = true) :
    out = writesOf ops := by
  obtain ⟨hi, heq⟩ := runTrace_spec ops (newPipe c) none out pf (Inv_newPipe c hc) h
  rw [contents_newPipe, (contents_empty_iff pf hi).mp hdrained] at heq
  simpa [pendRest] using heq

theorem streaming_fidelity_witness :
    (1 ≤ 2 ∧
      runTrace (newPipe 2) none [Op.write [1, 2, 3], Op.read 2, Op.resume, Op.read 1] =
        some ([1, 2, 3], ⟨[3, 2], 1, 1, 1, false, false, none, none⟩)) ∧
    [1, 2, 3] = writesOf [Op.write [1, 2, 3], Op.read 2, Op.resume, Op.read 1] :=
  ⟨⟨by decide, by decide⟩,
    streaming_fidelity 2 (by decide) _ [1, 2, 3]
      ⟨[3, 2], 1, 1, 1, false, false, none, none⟩ (by decide) (by decide)⟩

theorem closeReaderLocked_readerClosed (p : Pipe) (e : Option Err) (w : Bool) :
    (closeReaderLocked p e w).readerClosed = true := by
  unfold closeReaderLocked
  dsimp only
  split <;> rfl

theorem closeReaderLocked_plain (p : Pipe) (e : Option Err) :
    closeReaderLocked p e false = { p with readerClosed := true } := by
  unfold closeReaderLocked
  rw [if_neg (by simp)]

theorem closeReaderLocked_already (p : Pipe) (e : Option Err) (w : Bool)
    (h : p.writerClosedErr ≠ none) :
    closeReaderLocked p e w = { p with readerClosed := true } := by
  unfold closeReaderLocked
  rw [if_neg (by simp [h])]

theorem closeReaderLocked_fresh (p : Pipe) (e : Option Err)
    (h : p.writerClosedErr = none) :
    closeReaderLocked p e true =
      { p with readerClosed := true, writerClosedErr := some (e.getD .closedPipe) } := by
  unfold closeReaderLocked
  rw [if_pos (by simp [h])]

theorem closeWriterLocked_writerClosed (p : Pipe) (e : Option Err) (w : Bool) :
    (closeWriterLocked p e w).writerClosed = true := by
  unfold closeWriterLocked
  dsimp only
  split <;> rfl

theorem closeWriterLocked_plain (p : Pipe) (e : Option Err) :
    closeWriterLocked p e false = { p with writerClosed := true } := by
  unfold closeWriterLocked
  rw [if_neg (by simp)]

theorem closeWriterLocked_already (p : Pipe) (e : Option Err) (w : Bool)
    (h : p.readerClosedErr ≠ none) :
    closeWriterLocked p e w = { p with writerClosed := true } := by
  unfold closeWriterLocked
  rw [if_neg (by simp [h])]

theorem closeWriterLocked_fresh (p : Pipe) (e : Option Err)
    (h : p.readerClosedErr = none) :
    closeWriterLocked p e true =
      { p with writerClosed := true, readerClosedErr := some (e.getD .eof) } := by
  unfold closeWriterLocked
  rw [if_pos (by simp [h])]

theorem writeLoop_readerClosed (p : Pipe) (b : List Nat) (acc : Nat) (hb : b ≠ [])
    (hrc : p.readerClosed = true) :
    writeLoop b.length p b acc =
      .done acc (some (p.writerClosedErr.getD .closedPipe)) p := by
  cases b with
  | nil => exact absurd rfl hb
  | cons x bs =>
    rw [show (x :: bs).length = bs.length + 1 from rfl, writeLoop_succ_cons,
      wfw_readerClosed p hrc]

theorem pwrite_readerClosed (p : Pipe) (b : List Nat) (hb : b ≠ [])
    (hrc : p.readerClosed = true) :
    pwrite p b = .done 0 (some (p.writerClosedErr.getD .closedPipe)) p :=
  writeLoop_readerClosed p b 0 hb hrc

theorem pwrite_writerClosed (p : Pipe) (b : List Nat) (hb : b ≠ [])
    (hrc : p.readerClosed = false) (hwc : p.writerClosed = true) :
    pwrite p b = .done 0 (some .closedPipe) p := by
  cases b with
  | nil => exact absurd rfl hb
  | cons x bs =>
    unfold pwrite
    rw [show (x :: bs).length = bs.length + 1 from rfl, writeLoop_succ_cons,
      wfw_writerClosed p hrc hwc]

/-- Claim C8: for every pipe state — buffer empty, partially filled or full,
either or both sides closed, with or without sticky errors — a read with a
zero-length destination returns count 0 and no error immediately, never
blocks, and returns the state unchanged. -/
theorem zero_length_read_noop (p : Pipe) : pread p 0 = .ok 0 [] p := rfl

/-- Claim C10: for every pipe state, including closed sides with or without a
sticky error, a write with a zero-length source returns count 0 and no error
without blocking and without modifying the state: the loop body — and with it
every closed-side error check — is skipped entirely, so a zero-length write
never reports the closed-pipe or sticky error. -/
theorem zero_length_write_noop (p : Pipe) : pwrite p [] = .done 0 none p := rfl

/-- Claim C2 counterexample: with capacity 4, after writing four bytes,
reading two and writing two more, the 4 unread bytes wrap around the
capacity; a single read with a 4-byte destination then copies only the 2
bytes up to the capacity (one contiguous segment, yielding 99, 100 = "cd"),
not min(4, 4) = 4 bytes, and never splits the copy into two segments. -/
theorem single_read_after_wrap_is_short :
    runTrace (newPipe 4) none [Op.write [97, 98, 99, 100], Op.read 2, Op.write [120, 121]] =
      some ([97, 98], ⟨[120, 121, 99, 100], 4, 2, 2, false, false, none, none⟩) ∧
    (contents ⟨[120, 121, 99, 100], 4, 2, 2, false, false, none, none⟩).length = 4 ∧
    pread ⟨[120, 121, 99, 100], 4, 2, 2, false, false, none, none⟩ 4 =
      .ok 2 [99, 100] ⟨[120, 121, 99, 100], 2, 2, 0, false, false, none, none⟩ ∧
    2 ≠ min 4 4 := by decide

/-- Claim C2 (amended): a read call with a non-empty destination on a pipe
holding unread bytes copies exactly min(len(dst), len(buffer) − readPos)
bytes — one contiguous segment, a prefix of the unread bytes — which is
fewer than min(unread, len(dst)) when the unread region wraps; the remainder
is left for the following read (in the capacity-4 example a single 4-byte
read yields "cd" and the next read yields "xy"). -/
theorem read_copies_one_contiguous_segment (p : Pipe) (m n : Nat) (out : List Nat)
    (p' : Pipe) (hInv : Inv p) (hm : m ≠ 0) (hne : p.empty = false)
    (h : pread p m = .ok n out p') :
    n = min m (p.length - p.readPos) ∧ out = (contents p).take n ∧
    contents p' = (contents p).drop n := by
  rw [pread_nonempty p m hm hne] at h
  injection h with h1 h2 h3
  subst h1; subst h2; subst h3
  obtain ⟨_, hn, ht, hd⟩ := readChunk_spec p m hInv hne
  exact ⟨hn, ht, hd⟩

theorem read_copies_one_contiguous_segment_witness :
    (Inv (⟨[120, 121, 99, 100], 4, 2, 2, false, false, none, none⟩ : Pipe) ∧
      (4 : Nat) ≠ 0 ∧
      Pipe.empty ⟨[120, 121, 99, 100], 4, 2, 2, false, false, none, none⟩ = false ∧
      pread ⟨[120, 121, 99, 100], 4, 2, 2, false, false, none, none⟩ 4 =
        .ok 2 [99, 100] ⟨[120, 121, 99, 100], 2, 2, 0, false, false, none, none⟩) ∧
    (2 = min 4 (4 - 2) ∧
      [99, 100] =
        (contents ⟨[120, 121, 99, 100], 4, 2, 2, false, false, none, none⟩).take 2 ∧
      contents (⟨[120, 121, 99, 100], 2, 2, 0, false, false, none, none⟩ : Pipe) =
        (contents ⟨[120, 121, 99, 100], 4, 2, 2, false, false, none, none⟩).drop 2) :=
  ⟨⟨by decide, by decide, by decide, by decide⟩,
    read_copies_one_contiguous_segment
      ⟨[120, 121, 99, 100], 4, 2, 2, false, false, none, none⟩ 4 2 [99, 100]
      ⟨[120, 121, 99, 100], 2, 2, 0, false, false, none, none⟩
      (by decide) (by decide) (by decide) (by decide)⟩

/-- Claim C3 counterexample: plain close is not observably equivalent to
close-with-empty-error.  Plain close leaves the sticky slot unset, so a later
close-with-error on the same side still installs its error (custom error 7)
and the opposite side observes it; after close-with-empty-error the slot
already holds the closed-pipe default and the same later call changes
nothing.  The two histories produce different errors on the next write. -/
theorem plain_close_differs_from_empty_error_close :
    (readerCloseWithError (pcloseReader (newPipe 1)) (some (.custom 7))).writerClosedErr =
      some (.custom 7) ∧
    (readerCloseWithError (readerCloseWithError (newPipe 1) none)
        (some (.custom 7))).writerClosedErr = some .closedPipe ∧
    pwrite (readerCloseWithError (pcloseReader (newPipe 1)) (some (.custom 7))) [0] =
      .done 0 (some (.custom 7))
        (readerCloseWithError (pcloseReader (newPipe 1)) (some (.custom 7))) ∧
    pwrite (readerCloseWithError (readerCloseWithError (newPipe 1) none)
        (some (.custom 7))) [0] =
      .done 0 (some .closedPipe)
        (readerCloseWithError (readerCloseWithError (newPipe 1) none)
          (some (.custom 7))) ∧
    Err.custom 7 ≠ Err.closedPipe := by decide

/-- Claim C3 (amended): plain close on either handle marks that side closed
and leaves both sticky slots untouched; since the failing call substitutes
the default error when the slot is empty, the opposite side observes the same
error after a plain close as after closeWithError with an empty error — the
closed-pipe default for writes after a reader-side close, the end-of-stream
default for reads after a writer-side close — as long as no later
close-with-error intervenes (after a plain close such a later call can still
install its error; that is the one observable difference). -/
theorem plain_close_observable_defaults (p : Pipe) (b : List Nat) (m : Nat)
    (hb : b ≠ []) (hm : m ≠ 0) :
    (pcloseReader p).readerClosed = true ∧
    (pcloseReader p).writerClosedErr = p.writerClosedErr ∧
    (pcloseReader p).readerClosedErr = p.readerClosedErr ∧
    pwrite (pcloseReader p) b =
      .done 0 (some (p.writerClosedErr.getD .closedPipe)) (pcloseReader p) ∧
    pwrite (readerCloseWithError p none) b =
      .done 0 (some (p.writerClosedErr.getD .closedPipe)) (readerCloseWithError p none) ∧
    (pcloseWriter p).writerClosed = true ∧
    (pcloseWriter p).readerClosedErr = p.readerClosedErr ∧
    (pcloseWriter p).writerClosedErr = p.writerClosedErr ∧
    (p.empty = true → p.readerClosed = false →
      pread (pcloseWriter p) m = .fail (p.readerClosedErr.getD .eof) (pcloseWriter p) ∧
      pread (writerCloseWithError p none) m =
        .fail (p.readerClosedErr.getD .eof) (writerCloseWithError p none)) := by
  have hr : pcloseReader p = { p with readerClosed := true } :=
    closeReaderLocked_plain p none
  have hw : pcloseWriter p = { p with writerClosed := true } :=
    closeWriterLocked_plain p none
  refine ⟨by rw [hr], by rw [hr], by rw [hr], ?_, ?_, by rw [hw], by rw [hw], by rw [hw],
    fun he hrc => ⟨?_, ?_⟩⟩
  · rw [hr]
    exact pwrite_readerClosed _ b hb rfl
  · cases hwce : p.writerClosedErr with
    | none =>
      rw [readerCloseWithError, closeReaderLocked_fresh p none hwce]
      have := pwrite_readerClosed
        { p with readerClosed := true, writerClosedErr := some (Option.getD none .closedPipe) }
        b hb rfl
      rw [this]
      rfl
    | some e0 =>
      rw [readerCloseWithError, closeReaderLocked_already p none true (by rw [hwce]; simp)]
      have := pwrite_readerClosed { p with readerClosed := true } b hb rfl
      rw [this, hwce]
  · rw [hw]
    have := pread_empty_writerClosed { p with writerClosed := true } m hm he hrc rfl
    rw [this]
  · cases hrce : p.readerClosedErr with
    | none =>
      rw [writerCloseWithError, closeWriterLocked_fresh p none hrce]
      have := pread_empty_writerClosed
        { p with writerClosed := true, readerClosedErr := some (Option.getD none .eof) }
        m hm he hrc rfl
      rw [this]
      rfl
    | some e0 =>
      rw [writerCloseWithError, closeWriterLocked_already p none true (by rw [hrce]; simp)]
      have := pread_empty_writerClosed { p with writerClosed := true } m hm he hrc rfl
      rw [this, hrce]

theorem plain_close_observable_defaults_witness :
    ((pcloseReader ⟨[0], 0, 0, 0, false, false, none, none⟩).readerClosed = true ∧
      (pcloseReader ⟨[0], 0, 0, 0, false, false, none, none⟩).writerClosedErr = none ∧
      (pcloseReader ⟨[0], 0, 0, 0, false, false, none, none⟩).readerClosedErr = none ∧
      pwrite (pcloseReader ⟨[0], 0, 0, 0, false, false, none, none⟩) [3] =
        .done 0 (some .closedPipe) (pcloseReader ⟨[0], 0, 0, 0, false, false, none, none⟩) ∧
      pwrite (readerCloseWithError ⟨[0], 0, 0, 0, false, false, none, none⟩ none) [3] =
        .done 0 (some .closedPipe)
          (readerCloseWithError ⟨[0], 0, 0, 0, false, false, none, none⟩ none) ∧
      (pcloseWriter ⟨[0], 0, 0, 0, false, false, none, none⟩).writerClosed = true ∧
      (pcloseWriter ⟨[0], 0, 0, 0, false, false, none, none⟩).readerClosedErr = none ∧
      (pcloseWriter ⟨[0], 0, 0, 0, false, false, none, none⟩).writerClosedErr = none) ∧
    (pread (pcloseWriter ⟨[0], 0, 0, 0, false, false, none, none⟩) 1 =
        .fail .eof (pcloseWriter ⟨[0], 0, 0, 0, false, false, none, none⟩) ∧
      pread (writerCloseWithError ⟨[0], 0, 0, 0, false, false, none, none⟩ none) 1 =
        .fail .eof (writerCloseWithError ⟨[0], 0, 0, 0, false, false, none, none⟩ none)) := by
  have T := plain_close_observable_defaults ⟨[0], 0, 0, 0, false, false, none, none⟩
    [3] 1 (by decide) (by decide)
  exact ⟨⟨T.1, T.2.1, T.2.2.1, T.2.2.2.1, T.2.2.2.2.1, T.2.2.2.2.2.1,
    T.2.2.2.2.2.2.1, T.2.2.2.2.2.2.2.1⟩, T.2.2.2.2.2.2.2.2 rfl rfl⟩

/-- Claim C4: closing a side does not discard buffered bytes.  While unread
bytes remain, a read with a non-empty destination succeeds and drains at
least one byte — whatever the closed flags and sticky errors, which the wait
loop only consults once the buffer is observed empty.  Only a read that finds
the buffer empty surfaces an error: after a writer-side close (reader side
still open) the sticky reader-side error or the end-of-stream default; after
a reader-side close the sticky error installed by that close or the
closed-pipe default. -/
theorem reads_drain_buffered_bytes_before_error (p : Pipe) (m : Nat)
    (hInv : Inv p) (hm : m ≠ 0) :
    (p.empty = false →
      pread p m =
        .ok (readChunkLocked p m).1 (readChunkLocked p m).2.1 (readChunkLocked p m).2.2 ∧
      1 ≤ (readChunkLocked p m).1 ∧
      (readChunkLocked p m).2.1 = (contents p).take ((readChunkLocked p m).1)) ∧
    (p.empty = true → p.readerClosed = false → p.writerClosed = true →
      pread p m = .fail (p.readerClosedErr.getD .eof) p) ∧
    (p.empty = true → p.readerClosed = true →
      pread p m = .fail (p.writerClosedErr.getD .closedPipe) p) := by
  refine ⟨?_, ?_, ?_⟩
  · intro hne
    obtain ⟨_, hn, ht, _⟩ := readChunk_spec p m hInv hne
    refine ⟨pread_nonempty p m hm hne, ?_, ht⟩
    rw [hn]
    have hne' : p.readPos ≠ p.length := by simpa [Pipe.empty] using hne
    rcases hInv with ⟨hk, ⟨hw2, hr2, hl2⟩ | ⟨hl2, hwr2, hr2⟩⟩ <;>
      simp only [Pipe.cap_eq] at * <;> omega
  · intro he hrc hwc
    exact pread_empty_writerClosed p m hm he hrc hwc
  · intro he hrc
    exact pread_empty_readerClosed p m hm he hrc

theorem reads_drain_buffered_bytes_before_error_witness :
    (pread ⟨[5, 9], 2, 0, 0, true, true, some (.custom 1), some (.custom 2)⟩ 1 =
        .ok 1 [5] ⟨[5, 9], 2, 0, 1, true, true, some (.custom 1), some (.custom 2)⟩ ∧
      1 ≤ 1 ∧
      ([5] : List Nat) =
        (contents ⟨[5, 9], 2, 0, 0, true, true, some (.custom 1), some (.custom 2)⟩).take 1) ∧
    pread ⟨[0], 0, 0, 0, false, true, some (.custom 3), none⟩ 1 =
      .fail (.custom 3) ⟨[0], 0, 0, 0, false, true, some (.custom 3), none⟩ ∧
    pread ⟨[0], 0, 0, 0, true, false, none, some (.custom 4)⟩ 1 =
      .fail (.custom 4) ⟨[0], 0, 0, 0, true, false, none, some (.custom 4)⟩ := by
  have T1 := reads_drain_buffered_bytes_before_error
    ⟨[5, 9], 2, 0, 0, true, true, some (.custom 1), some (.custom 2)⟩ 1
    (by decide) (by decide)
  have T2 := reads_drain_buffered_bytes_before_error
    ⟨[0], 0, 0, 0, false, true, some (.custom 3), none⟩ 1 (by decide) (by decide)
  have T3 := reads_drain_buffered_bytes_before_error
    ⟨[0], 0, 0, 0, true, false, none, some (.custom 4)⟩ 1 (by decide) (by decide)
  exact ⟨T1.1 rfl, T2.2.1 rfl rfl rfl, T3.2.2 rfl rfl⟩

/-- Claim C5: sticky first-error-wins.  Once a sticky error is installed for
the opposite side, a second close-with-error on the same side — with any
other error — leaves the installed value unchanged, keeps the closed flag set
(the repeat close is idempotent on the flag), and the opposite side keeps
observing the first error: every subsequent non-empty write fails with it,
and, symmetrically, every read that finds the buffer empty (reader side still
open) fails with it. -/
theorem sticky_error_first_wins (p : Pipe) (e1 : Err) (e2 : Option Err)
    (b : List Nat) (m : Nat) (hb : b ≠ []) (hm : m ≠ 0) :
    (p.writerClosedErr = some e1 →
      (readerCloseWithError p e2).writerClosedErr = some e1 ∧
      (readerCloseWithError p e2).readerClosed = true ∧
      pwrite (readerCloseWithError p e2) b =
        .done 0 (some e1) (readerCloseWithError p e2)) ∧
    (p.readerClosedErr = some e1 →
      (writerCloseWithError p e2).readerClosedErr = some e1 ∧
      (writerCloseWithError p e2).writerClosed = true ∧
      (p.empty = true → p.readerClosed = false →
        pread (writerCloseWithError p e2) m =
          .fail e1 (writerCloseWithError p e2))) := by
  constructor
  · intro h1
    have hq : readerCloseWithError p e2 = { p with readerClosed := true } :=
      closeReaderLocked_already p e2 true (by rw [h1]; simp)
    rw [hq]
    refine ⟨h1, rfl, ?_⟩
    rw [pwrite_readerClosed { p with readerClosed := true } b hb rfl]
    dsimp only
    rw [h1]
    rfl
  · intro h2
    have hq : writerCloseWithError p e2 = { p with writerClosed := true } :=
      closeWriterLocked_already p e2 true (by rw [h2]; simp)
    rw [hq]
    refine ⟨h2, rfl, fun he hrc => ?_⟩
    rw [pread_empty_writerClosed { p with writerClosed := true } m hm he hrc rfl]
    dsimp only
    rw [h2]
    rfl

theorem sticky_error_first_wins_witness :
    ((readerCloseWithError ⟨[0], 0, 0, 0, false, false, some (.custom 1), some (.custom 1)⟩
        (some (.custom 9))).writerClosedErr = some (.custom 1) ∧
      (readerCloseWithError ⟨[0], 0, 0, 0, false, false, some (.custom 1), some (.custom 1)⟩
        (some (.custom 9))).readerClosed = true ∧
      pwrite (readerCloseWithError
          ⟨[0], 0, 0, 0, false, false, some (.custom 1), some (.custom 1)⟩
          (some (.custom 9))) [7] =
        .done 0 (some (.custom 1))
          (readerCloseWithError ⟨[0], 0, 0, 0, false, false, some (.custom 1), some (.custom 1)⟩
            (some (.custom 9)))) ∧
    ((writerCloseWithError ⟨[0], 0, 0, 0, false, false, some (.custom 1), some (.custom 1)⟩
        (some (.custom 9))).readerClosedErr = some (.custom 1) ∧
      (writerCloseWithError ⟨[0], 0, 0, 0, false, false, some (.custom 1), some (.custom 1)⟩
        (some (.custom 9))).writerClosed = true ∧
      pread (writerCloseWithError
          ⟨[0], 0, 0, 0, false, false, some (.custom 1), some (.custom 1)⟩
          (some (.custom 9))) 1 =
        .fail (.custom 1)
          (writerCloseWithError ⟨[0], 0, 0, 0, false, false, some (.custom 1), some (.custom 1)⟩
            (some (.custom 9)))) := by
  have T := sticky_error_first_wins
    ⟨[0], 0, 0, 0, false, false, some (.custom 1), some (.custom 1)⟩
    (.custom 1) (some (.custom 9)) [7] 1 (by decide) (by decide)
  exact ⟨T.1 rfl, ⟨(T.2 rfl).1, (T.2 rfl).2.1, (T.2 rfl).2.2 rfl rfl⟩⟩

/-- Claim C6: a write call that finds the reader side closed fails
immediately with the sticky errorForWriter if one is set and the generic
closed-pipe error otherwise, regardless of the free space in the buffer, with
count 0 from that call; and when a write that blocked mid-call — having
already accepted some bytes — resumes after the reader side closes, the loop
returns those accepted bytes in the count together with the same error. -/
theorem write_fails_on_reader_close (p : Pipe) (b : List Nat) (n : Nat)
    (p1 : Pipe) (rest : List Nat) (e : Option Err) (w : Bool) (hb : b ≠ []) :
    (p.readerClosed = true →
      pwrite p b = .done 0 (some (p.writerClosedErr.getD .closedPipe)) p) ∧
    (pwrite p b = .blocked n p1 rest →
      writeLoop rest.length (closeReaderLocked p1 e w) rest n =
        .done n (some ((closeReaderLocked p1 e w).writerClosedErr.getD .closedPipe))
          (closeReaderLocked p1 e w)) := by
  refine ⟨fun hrc => pwrite_readerClosed p b hb hrc, fun hbl => ?_⟩
  have hrest : rest ≠ [] := writeLoop_blocked_rest_ne b.length p b 0 n p1 rest hbl
  exact writeLoop_readerClosed _ rest n hrest (closeReaderLocked_readerClosed p1 e w)

theorem write_fails_on_reader_close_witness :
    pwrite ⟨[0], 0, 0, 0, true, false, none, some (.custom 4)⟩ [7] =
      .done 0 (some (.custom 4)) ⟨[0], 0, 0, 0, true, false, none, some (.custom 4)⟩ ∧
    writeLoop 1
        (closeReaderLocked ⟨[1], 1, 0, 0, false, false, none, none⟩ (some (.custom 5)) true)
        [2] 1 =
      .done 1 (some (.custom 5))
        (closeReaderLocked ⟨[1], 1, 0, 0, false, false, none, none⟩
          (some (.custom 5)) true) := by
  have T1 := write_fails_on_reader_close
    ⟨[0], 0, 0, 0, true, false, none, some (.custom 4)⟩ [7] 0
    ⟨[0], 0, 0, 0, true, false, none, some (.custom 4)⟩ [] none false (by decide)
  have T2 := write_fails_on_reader_close (newPipe 1) [1, 2] 1
    ⟨[1], 1, 0, 0, false, false, none, none⟩ [2] (some (.custom 5)) true (by decide)
  exact ⟨T1.1 rfl, T2.2 (by decide)⟩

/-- Claim C7: the buffered-transfer loop behind `WriteTo` and `ReadFrom`.
End-of-stream from the pull stops the loop and returns the accumulated byte
total with no error (end-of-stream is translated to success, not propagated)
— after first pushing any bytes delivered alongside it.  A push that reports
fewer bytes than it was handed, without its own error, fails the loop with
the short-write error and the total moved so far.  Any other pull or push
error is returned immediately together with the total moved so far. -/
theorem copyBuffered_contract (push : Nat → Int × Option Err)
    (pulls : List (Int × Option Err)) (i : Nat) (total n wn : Int) (e : Err) :
    (push i = (n, none) →
      copyBuffered push ((n, some .eof) :: pulls) i total =
        (total + (if 0 < n then n else 0), none)) ∧
    (0 < n → push i = (wn, none) → 0 ≤ wn → wn < n →
      copyBuffered push ((n, none) :: pulls) i total = (total + wn, some .shortWrite)) ∧
    (n ≤ 0 → e ≠ .eof →
      copyBuffered push ((n, some e) :: pulls) i total = (total, some e)) ∧
    (0 < n → push i = (wn, some e) → 0 ≤ wn → wn ≤ n →
      copyBuffered push ((n, none) :: pulls) i total = (total + wn, some e)) ∧
    (0 < n → push i = (n, none) → e ≠ .eof →
      copyBuffered push ((n, some e) :: pulls) i total = (total + n, some e)) := by
  refine ⟨?_, ?_, ?_, ?_, ?_⟩
  · intro hp
    by_cases hn : 0 < n
    · have h1 : ¬ (n < 0) := by omega
      have h2 : ¬ (n < n) := by omega
      simp [copyBuffered, hp, hn, h1, h2]
    · simp [copyBuffered, hn]
  · intro hn hp hw1 hw2
    have h1 : ¬ (wn < 0) := by omega
    have h2 : ¬ (n < wn) := by omega
    have h3 : wn ≠ n := by omega
    simp [copyBuffered, hp, hn, h1, h2, h3]
  · intro hn he
    have h1 : ¬ ((0 : Int) < n) := by omega
    simp [copyBuffered, h1, he]
  · intro hn hp hw1 hw2
    have h1 : ¬ (wn < 0) := by omega
    have h2 : ¬ (n < wn) := by omega
    simp [copyBuffered, hp, hn, h1, h2]
  · intro hn hp he
    have h1 : ¬ (n < 0) := by omega
    have h2 : ¬ (n < n) := by omega
    simp [copyBuffered, hp, hn, h1, h2, he]

theorem copyBuffered_contract_witness :
    (copyBuffered (fun _ => (3, none)) [((3 : Int), some .eof)] 0 10 = (13, none)) ∧
    (copyBuffered (fun _ => (2, none)) [((3 : Int), none)] 0 10 =
      (12, some .shortWrite)) ∧
    (copyBuffered (fun _ => (3, none)) [((0 : Int), some (.custom 6))] 0 10 =
      (10, some (.custom 6))) ∧
    (copyBuffered (fun _ => (2, some (.custom 6))) [((3 : Int), none)] 0 10 =
      (12, some (.custom 6))) ∧
    (copyBuffered (fun _ => (3, none)) [((3 : Int), some (.custom 6))] 0 10 =
      (13, some (.custom 6))) := by
  have T1 := copyBuffered_contract (fun _ => (3, none)) [] 0 10 3 3 .eof
  have T2 := copyBuffered_contract (fun _ => (2, none)) [] 0 10 3 2 .eof
  have T3 := copyBuffered_contract (fun _ => (3, none)) [] 0 10 0 3 (.custom 6)
  have T4 := copyBuffered_contract (fun _ => (2, some (.custom 6))) [] 0 10 3 2 (.custom 6)
  have T5 := copyBuffered_contract (fun _ => (3, none)) [] 0 10 3 3 (.custom 6)
  refine ⟨?_, ?_, ?_, ?_, ?_⟩
  · have := T1.1 rfl
    simpa using this
  · have := T2.2.1 (by omega) rfl (by omega) (by omega)
    simpa using this
  · have := T3.2.2.1 (by omega) (by decide)
    simpa using this
  · have := T4.2.2.2.1 (by omega) rfl (by omega) (by omega)
    simpa using this
  · have := T5.2.2.2.2 (by omega) rfl (by decide)
    simpa using this

theorem readChunk_claimInv (p : Pipe) (m : Nat) (h : ClaimInv p) :
    ClaimInv (readChunkLocked p m).2.2 := by
  obtain ⟨h1, h2, h3⟩ := h
  simp only [Pipe.cap_eq] at h2 h3
  have hsl : (slice p.data p.readPos p.length).length ≤ p.length - p.readPos := by
    rw [slice_length]; omega
  simp only [readChunkLocked, Pipe.cap_eq]
  split
  · unfold ClaimInv
    dsimp only [Pipe.cap_eq]
    omega
  · unfold ClaimInv
    dsimp only [Pipe.cap_eq]
    omega

theorem writeAvail_within (p : Pipe) (srcLen : Nat) (h1 : p.readPos ≤ p.length)
    (h2 : p.length ≤ p.data.length) (h3 : p.writePos ≤ p.data.length) :
    p.writePos + writeAvail p srcLen ≤ p.data.length := by
  unfold writeAvail
  simp only [Pipe.cap_eq]
  split <;> omega

theorem writeChunk_claimInv (p : Pipe) (src : List Nat) (h : ClaimInv p) :
    ClaimInv (writeChunkLocked p src).2 := by
  have hav := writeAvail_within p src.length h.1 (by simpa using h.2.1)
    (by simpa using h.2.2)
  obtain ⟨h1, h2, h3⟩ := h
  simp only [Pipe.cap_eq] at h2 h3
  have hdl := storeAt_length p.data p.writePos (src.take (writeAvail p src.length))
  simp only [writeChunkLocked, Pipe.cap_eq]
  split
  · unfold ClaimInv
    dsimp only [Pipe.cap_eq]
    rw [hdl]
    split <;> omega
  · unfold ClaimInv
    dsimp only [Pipe.cap_eq]
    rw [hdl]
    split <;> omega

theorem pread_claimInv (p : Pipe) (m : Nat) (h : ClaimInv p) :
    ClaimInv (rrPipe (pread p m) p) := by
  by_cases hm : m = 0
  · subst hm
    exact h
  · by_cases hne : p.empty = false
    · rw [pread_nonempty p m hm hne]
      exact readChunk_claimInv p m h
    · have he : p.empty = true := by
        cases hb : p.empty
        · exact absurd hb hne
        · rfl
      cases hrc : p.readerClosed
      · cases hwc : p.writerClosed
        · rw [pread_empty_open p m hm he hrc hwc]
          exact h
        · rw [pread_empty_writerClosed p m hm he hrc hwc]
          exact h
      · rw [pread_empty_readerClosed p m hm he hrc]
        exact h

theorem writeLoop_claimInv (fuel : Nat) :
    ∀ p b acc, ClaimInv p → ClaimInv (wrPipe (writeLoop fuel p b acc)) := by
  induction fuel with
  | zero =>
    intro p b acc h
    cases b with
    | nil => exact h
    | cons x bs => exact h
  | succ fuel ih =>
    intro p b acc h
    cases b with
    | nil => exact h
    | cons x bs =>
      rw [writeLoop_succ_cons]
      cases hw : waitForWritableLocked p
      · exact ih _ _ _ (writeChunk_claimInv p (x :: bs) h)
      · exact h
      · exact h

theorem close_claimInv (p : Pipe) (e : Option Err) (w : Bool) (h : ClaimInv p) :
    ClaimInv (closeReaderLocked p e w) ∧ ClaimInv (closeWriterLocked p e w) := by
  constructor
  · unfold closeReaderLocked
    dsimp only
    split <;> exact h
  · unfold closeWriterLocked
    dsimp only
    split <;> exact h

/-- Claim C9: every pipe operation — the chunk primitives, `Read`, `Write`,
and the close operations of both handles, with or without an error —
preserves the bounds invariant `readPos ≤ len(buffer) ≤ cap(buffer)` and
`writePos ≤ cap(buffer)` (the lower bounds 0 are inherent to the unsigned
model), and `newPipe` establishes it; under this invariant every slice
expression of `readChunkLocked` and `writeChunkLocked` stays inside the
backing storage — `buffer[readPos:len]` and the re-slice `buffer[:writePos]`
are in bounds, the write copy ends at `writePos + available ≤ cap` and takes
at most `len(src)` source bytes, and a read never copies more than the
in-segment bytes — and `empty()` and `full()` are never simultaneously
true. -/
theorem operations_preserve_bounds (p : Pipe) (m size : Nat) (src b : List Nat)
    (e : Option Err) (w : Bool) (h : ClaimInv p) :
    ClaimInv (readChunkLocked p m).2.2 ∧
    ClaimInv (writeChunkLocked p src).2 ∧
    ClaimInv (rrPipe (pread p m) p) ∧
    ClaimInv (wrPipe (pwrite p b)) ∧
    ClaimInv (closeReaderLocked p e w) ∧
    ClaimInv (closeWriterLocked p e w) ∧
    ClaimInv (newPipe size) ∧
    p.readPos ≤ p.length ∧ p.length ≤ p.data.length ∧ p.writePos ≤ p.data.length ∧
    p.writePos + writeAvail p src.length ≤ p.data.length ∧
    writeAvail p src.length ≤ src.length ∧
    min m (slice p.data p.readPos p.length).length ≤ p.length - p.readPos ∧
    ¬ (p.empty = true ∧ p.full = true) := by
  obtain ⟨h1, h2, h3⟩ := id h
  simp only [Pipe.cap_eq] at h2 h3
  refine ⟨readChunk_claimInv p m h, writeChunk_claimInv p src h, pread_claimInv p m h,
    writeLoop_claimInv b.length p b 0 h, (close_claimInv p e w h).1,
    (close_claimInv p e w h).2, ?_, h1, h2, h3, writeAvail_within p src.length h1 h2 h3,
    Nat.min_le_right _ _, ?_, ?_⟩
  · refine ⟨Nat.le_refl 0, ?_, Nat.zero_le _⟩
    simp [newPipe]
  · rw [slice_length]
    omega
  · simp only [Pipe.empty, Pipe.full, decide_eq_true_eq]
    omega

theorem operations_preserve_bounds_witness :
    ClaimInv (⟨[1, 2, 3], 2, 2, 1, false, false, none, none⟩ : Pipe) ∧
    (ClaimInv (readChunkLocked ⟨[1, 2, 3], 2, 2, 1, false, false, none, none⟩ 2).2.2 ∧
      ClaimInv (writeChunkLocked ⟨[1, 2, 3], 2, 2, 1, false, false, none, none⟩ [9]).2 ∧
      ClaimInv (rrPipe (pread ⟨[1, 2, 3], 2, 2, 1, false, false, none, none⟩ 2)
        ⟨[1, 2, 3], 2, 2, 1, false, false, none, none⟩) ∧
      ClaimInv (wrPipe (pwrite ⟨[1, 2, 3], 2, 2, 1, false, false, none, none⟩ [8])) ∧
      ClaimInv (closeReaderLocked ⟨[1, 2, 3], 2, 2, 1, false, false, none, none⟩ none true) ∧
      ClaimInv (closeWriterLocked ⟨[1, 2, 3], 2, 2, 1, false, false, none, none⟩ none true) ∧
      ClaimInv (newPipe 2) ∧
      (1 : Nat) ≤ 2 ∧ (2 : Nat) ≤ 3 ∧ (2 : Nat) ≤ 3 ∧
      2 + writeAvail ⟨[1, 2, 3], 2, 2, 1, false, false, none, none⟩ 1 ≤ 3 ∧
      writeAvail ⟨[1, 2, 3], 2, 2, 1, false, false, none, none⟩ 1 ≤ 1 ∧
      min 2 (slice [1, 2, 3] 1 2).length ≤ 2 - 1 ∧
      ¬ (Pipe.empty ⟨[1, 2, 3], 2, 2, 1, false, false, none, none⟩ = true ∧
        Pipe.full ⟨[1, 2, 3], 2, 2, 1, false, false, none, none⟩ = true)) :=
  ⟨by decide,
    operations_preserve_bounds ⟨[1, 2, 3], 2, 2, 1, false, false, none, none⟩
      2 2 [9] [8] none true (by decide)⟩

end Pipebuf
